import Mathlib

/-!
Verification of the work-partitioning and reporting logic of
`src/run_append.py` (functions `get_reach_dict`, `log_reaches`,
`log_results`).

Python strings are modelled as lists of characters (`Str`).  The MPI
communicator supplies only the worker count `size` here; the coordination
primitives themselves (bcast / barrier / gather) are opaque to the
partitioning logic and are not modelled.  `list(set(...))` iterates a
Python set in an implementation-defined order, so the enumeration order of
the deduplicated key list is an explicit parameter `enum`, constrained in
theorems by `IsDedupOf`.
-/

/-- Python strings, modelled as lists of characters. -/
abbrev Str := List Char

/-- A convenient injection of Lean string literals into `Str`. -/
def chars (s : String) : Str := s.toList

/-- Errors arising in the embedded fragment.  `indexError` and
`zeroDivisionError` are what the Python code can actually raise;
`invalidConfiguration` is taken from the spec's error taxonomy (§7) so that
the spec's claim about it can be stated and compared with the code. -/
inductive PyError where
  | indexError
  | zeroDivisionError
  | invalidConfiguration
deriving DecidableEq, Repr

instance exceptDecEq {ε α : Type} [DecidableEq ε] [DecidableEq α] :
    DecidableEq (Except ε α) := fun x y =>
  match x, y with
  | .ok a, .ok b =>
    if h : a = b then .isTrue (by rw [h])
    else .isFalse (by intro hc; cases hc; exact h rfl)
  | .ok _, .error _ => .isFalse (by intro hc; cases hc)
  | .error _, .ok _ => .isFalse (by intro hc; cases hc)
  | .error e, .error f =>
    if h : e = f then .isTrue (by rw [h])
    else .isFalse (by intro hc; cases hc; exact h rfl)

/-- Python `s.split(sep)` for a one-character separator: splits at every
occurrence of `sep`, keeping empty pieces, and `"".split(sep) = [""]`.
The result is always non-empty. -/
def pySplit (sep : Char) : Str → List Str
  | [] => [[]]
  | c :: rest =>
    match pySplit sep rest with
    | [] => if c = sep then [[], []] else [[c]]
    | t :: ts => if c = sep then [] :: t :: ts else (c :: t) :: ts

/-- Python list indexing `l[i]`: raises `IndexError` when out of range. -/
def pyIndex (l : List Str) (i : Nat) : Except PyError Str :=
  if h : i < l.length then .ok (l.get ⟨i, h⟩) else .error .indexError

/-- Line 47: `entry.name.split('_')[0] + '_' + entry.name.split('_')[1]` —
the item key derived from one directory-entry name. -/
def deriveKey (name : Str) : Except PyError Str := do
  let t0 ← pyIndex (pySplit '_' name) 0
  let t1 ← pyIndex (pySplit '_' name) 1
  pure (t0 ++ '_' :: t1)

/-- Lines 46-47: the list comprehension over the directory entries,
evaluated left to right; the first `IndexError` aborts it. -/
def deriveKeys : List Str → Except PyError (List Str)
  | [] => .ok []
  | n :: rest => do
    let k ← deriveKey n
    let ks ← deriveKeys rest
    pure (k :: ks)

/-- Line 68: `reach_dict[i].append(x)` on the rank dictionary — appends `x`
to the entry whose key is `i` (in every reachable call the key is present). -/
def updateAppend (d : List (Nat × List Str)) (i : Nat) (x : Str) :
    List (Nat × List Str) :=
  d.map fun p => if p.1 = i then (p.1, p.2 ++ [x]) else p

/-- Lines 55-61: `for i in range(size): reach_dict[i] = reach_list[start:end]`
with `start = i * reach_per_rank` and `end = start + reach_per_rank`
(the accumulator `reach_count` advances by `reach_per_rank` per iteration,
so it equals `i * reach_per_rank` at iteration `i`).  The Python dict,
whose keys are inserted in rank order, is modelled as an association list
in that insertion order. -/
def buildBase (reach_list : List Str) (size base : Nat) :
    List (Nat × List Str) :=
  (List.range size).map fun i => (i, (reach_list.drop (i * base)).take base)

/-- Lines 66-70: the remaining-reach loop.  `for j in range(remaining)` uses
`j` only as a counter, so it is embedded as recursion on the number of
remaining iterations; the other arguments are the mutable state
`reach_count` and `i`, and the dictionary.  Each step appends
`reach_list[reach_count]` (always in range at every reachable call, hence
`getD`) to rank `i`'s list, then advances `i` round-robin:
`i = 0 if i == (size - 1) else i + 1`. -/
def spreadExtra (reach_list : List Str) (size : Nat) :
    Nat → Nat → Nat → List (Nat × List Str) → List (Nat × List Str)
  | 0, _, _, d => d
  | j + 1, cnt, i, d =>
    spreadExtra reach_list size j (cnt + 1) (if i = size - 1 then 0 else i + 1)
      (updateAppend d i (reach_list.getD cnt []))

/-- Lines 50-72 of `get_reach_dict`, after `list(set(...))`: partition the
deduplicated reach list (in its given enumeration order) over `size` ranks.
`total_reaches // size` raises `ZeroDivisionError` when `size = 0`; after
the base loop `reach_count = size * reach_per_rank`, and
`remaining = total_reaches - reach_count`. -/
def partitionFrom (reach_list : List Str) (size : Nat) :
    Except PyError (List (Nat × List Str)) :=
  if size = 0 then .error .zeroDivisionError
  else
    let total := reach_list.length
    let base := total / size
    let d := buildBase reach_list size base
    if total % size ≠ 0 then
      .ok (spreadExtra reach_list size (total - size * base) (size * base) 0 d)
    else
      .ok d

/-- Lines 41-72, `get_reach_dict`: derive a key from each directory entry,
deduplicate via `list(set(reach_list))` — whose iteration order is
implementation-defined, hence the explicit `enum` parameter — and partition
the result over the ranks. -/
def getReachDict (entries enum : List Str) (size : Nat) :
    Except PyError (List (Nat × List Str)) :=
  match deriveKeys entries with
  | .error e => .error e
  | .ok _ => partitionFrom enum size

/-- `enum` is a possible iteration order of `set(keys)`: duplicate-free and
with exactly the members of `keys`. -/
def IsDedupOf (enum keys : List Str) : Prop :=
  enum.Nodup ∧ ∀ k, k ∈ enum ↔ k ∈ keys

/-- Modelled from the spec: `app.AppendSOS` is not under `src/`; the core
only reads its two result attributes (spec §3 "Outcome": a worker session
accumulates ordered sequences of valid and invalid keys). -/
structure AppendSOS where
  valid_list : List Str
  invalid_list : List Str
deriving DecidableEq, Repr

/-- Modelled from the spec: `AppendSOS.append` (spec §4.3 WorkerSession)
iterates the assigned keys in order; the opaque processing unit classifies
each key as valid or invalid, and the two sequences accumulate in
processing order. -/
def workerSession (pu : Str → Bool) (assigned : List Str) : AppendSOS :=
  assigned.foldl
    (fun a k =>
      if pu k then { a with valid_list := a.valid_list ++ [k] }
      else { a with invalid_list := a.invalid_list ++ [k] })
    ⟨[], []⟩

/-- Lines 133-136: `total_valid_list.extend(append_sos.valid_list)` over the
gathered results, in gather (= rank) order. -/
def totalValidList (results : List AppendSOS) : List Str :=
  results.foldl (fun acc a => acc ++ a.valid_list) []

/-- Lines 133-137: the invalid counterpart. -/
def totalInvalidList (results : List AppendSOS) : List Str :=
  results.foldl (fun acc a => acc ++ a.invalid_list) []

/-- Line 143 / 146: `', '.join(list)`, rendered back to a Lean string. -/
def commaJoin (l : List Str) : String :=
  String.mk (List.intercalate [',', ' '] l)

/-- Lines 130-147, `log_results`: the lines written to the main logger, in
order. -/
def log_results (results : List AppendSOS) : List String :=
  let v := totalValidList results
  let iv := totalInvalidList results
  ["total valid: " ++ toString v.length,
   "total invalid: " ++ toString iv.length,
   "",
   "valid reaches:",
   commaJoin v,
   "",
   "invalid reaches:",
   commaJoin iv,
   ""]

/-- Lines 123-125: `reach_count` is computed by incrementing once per
element of the value list. -/
def countElems (v : List Str) : Nat :=
  v.foldl (fun acc _ => acc + 1) 0

/-- Lines 118-128, `log_reaches`: one line per dictionary entry (iterated in
insertion order), then the total line. -/
def log_reaches (reach_dict : List (Nat × List Str)) : List String :=
  let st := reach_dict.foldl
    (fun (acc : List String × Nat) p =>
      let rc := countElems p.2
      (acc.1 ++ [toString p.1 ++ "   Reach count:    " ++ toString rc],
       acc.2 + rc))
    ([], 0)
  st.1 ++ ["Total reach count: " ++ toString st.2]

/-- The extra item rank `i` receives from the remainder loop (closed form). -/
def extraOf (l : List Str) (size i : Nat) : List Str :=
  if i < l.length % size then [l.getD (size * (l.length / size) + i) []] else []

/-- Closed form of the partition computed by `partitionFrom` for a
non-zero worker count. -/
def planOf (l : List Str) (size : Nat) : List (Nat × List Str) :=
  (List.range size).map fun i =>
    (i, (l.drop (i * (l.length / size))).take (l.length / size) ++ extraOf l size i)

/-! ### Concrete checks of the embedding (spec §8, Scenarios A and B) -/
example : pySplit '_' (chars "12_34_x.csv") =
    [chars "12", chars "34", chars "x.csv"] := by decide
example : deriveKey (chars "12_34_x.csv") = .ok (chars "12_34") := by decide
example : deriveKey (chars "abc") = .error .indexError := by decide
example :
    partitionFrom [chars "a_1", chars "b_2", chars "c_3", chars "d_4", chars "e_5"] 3 =
    .ok [(0, [chars "a_1", chars "d_4"]), (1, [chars "b_2", chars "e_5"]),
         (2, [chars "c_3"])] := by decide
example : partitionFrom [chars "a_1"] 0 = .error .zeroDivisionError := by decide
example : partitionFrom ([] : List Str) 4 = .ok [(0, []), (1, []), (2, []), (3, [])] := by
  decide

/-! ### Helper lemmas: closed form of the partition -/

theorem updateAppend_map (ks : List Nat) (f : Nat → List Str) (i : Nat) (x : Str) :
    updateAppend (ks.map fun k => (k, f k)) i x =
      ks.map fun k => (k, if k = i then f k ++ [x] else f k) := by
  simp only [updateAppend, List.map_map]
  apply List.map_congr_left
  intro k _
  by_cases h : k = i <;> simp [h]

theorem spreadExtra_map (l : List Str) (size : Nat) (rem cnt i0 : Nat)
    (f : Nat → List Str) (h : i0 + rem ≤ size) :
    spreadExtra l size rem cnt i0 ((List.range size).map fun k => (k, f k)) =
      (List.range size).map fun k =>
        (k, f k ++ if i0 ≤ k ∧ k < i0 + rem then [l.getD (cnt + (k - i0)) []]
            else []) := by
  induction rem generalizing cnt i0 f with
  | zero =>
    show (List.range size).map (fun k => (k, f k)) = _
    apply List.map_congr_left
    intro k _
    rw [if_neg (by omega), List.append_nil]
  | succ r ih =>
    have hi0 : i0 < size := by omega
    show spreadExtra l size r (cnt + 1) (if i0 = size - 1 then 0 else i0 + 1)
        (updateAppend ((List.range size).map fun k => (k, f k)) i0 (l.getD cnt [])) = _
    rw [updateAppend_map]
    by_cases hw : i0 = size - 1
    · have hr : r = 0 := by omega
      subst hr
      rw [if_pos hw]
      show (List.range size).map
          (fun k => (k, if k = i0 then f k ++ [l.getD cnt []] else f k)) = _
      apply List.map_congr_left
      intro k hk
      by_cases hki : k = i0
      · subst hki
        rw [if_pos rfl, if_pos (by omega), Nat.sub_self, Nat.add_zero]
      · rw [if_neg hki, if_neg (by omega), List.append_nil]
    · rw [if_neg hw, ih (cnt + 1) (i0 + 1) _ (by omega)]
      apply List.map_congr_left
      intro k hk
      rw [List.mem_range] at hk
      by_cases hki : k = i0
      · subst hki
        rw [if_pos rfl, if_neg (by omega), if_pos (by omega), List.append_nil,
          Nat.sub_self, Nat.add_zero]
      · rw [if_neg hki]
        by_cases h2 : i0 ≤ k ∧ k < i0 + (r + 1)
        · rw [if_pos (by omega), if_pos h2]
          have he : cnt + 1 + (k - (i0 + 1)) = cnt + (k - i0) := by omega
          rw [he]
        · rw [if_neg (by omega), if_neg h2]

theorem partitionFrom_eq_planOf (l : List Str) (size : Nat) (h : size ≠ 0) :
    partitionFrom l size = .ok (planOf l size) := by
  have hmod := Nat.div_add_mod l.length size
  have hlt : l.length % size < size := Nat.mod_lt _ (Nat.pos_of_ne_zero h)
  have hpf : partitionFrom l size =
      if l.length % size ≠ 0 then
        Except.ok (spreadExtra l size (l.length - size * (l.length / size))
          (size * (l.length / size)) 0 (buildBase l size (l.length / size)))
      else Except.ok (buildBase l size (l.length / size)) := by
    simp only [partitionFrom, if_neg h]
  rw [hpf]
  by_cases hz : l.length % size ≠ 0
  · rw [if_pos hz]
    show Except.ok
        (spreadExtra l size (l.length - size * (l.length / size))
          (size * (l.length / size)) 0
          ((List.range size).map fun i =>
            (i, (l.drop (i * (l.length / size))).take (l.length / size)))) = _
    rw [spreadExtra_map l size _ _ 0 _ (by omega)]
    congr 1
    apply List.map_congr_left
    intro k hk
    have hrem : l.length - size * (l.length / size) = l.length % size := by omega
    simp only [Nat.zero_add, Nat.sub_zero, Nat.zero_le, true_and, hrem]
    rfl
  · rw [if_neg hz]
    congr 1
    show (List.range size).map
        (fun i => (i, (l.drop (i * (l.length / size))).take (l.length / size))) = _
    apply List.map_congr_left
    intro k hk
    show _ = (k, (l.drop (k * (l.length / size))).take (l.length / size) ++
      extraOf l size k)
    unfold extraOf
    rw [if_neg (by omega), List.append_nil]

theorem flatten_map_append_perm {α β : Type} (is : List α) (s e : α → List β) :
    List.Perm ((is.map fun i => s i ++ e i).flatten)
      ((is.map s).flatten ++ (is.map e).flatten) := by
  induction is with
  | nil => simp
  | cons a is ih =>
    simp only [List.map_cons, List.flatten_cons]
    refine (ih.append_left (s a ++ e a)).trans ?_
    rw [List.append_assoc (s a), List.append_assoc (s a)]
    refine List.Perm.append_left (s a) ?_
    rw [← List.append_assoc, ← List.append_assoc]
    exact List.perm_append_comm.append_right _

theorem flatten_slices (l : List Str) (b : Nat) :
    ∀ n, ((List.range n).map fun i => (l.drop (i * b)).take b).flatten =
      l.take (n * b)
  | 0 => by simp
  | n + 1 => by
    rw [List.range_succ, List.map_append, List.flatten_append, flatten_slices l b n]
    simp only [List.map_cons, List.map_nil, List.flatten_cons, List.flatten_nil,
      List.append_nil]
    rw [Nat.succ_mul, List.take_add]

theorem flatten_extras {α : Type} (f : Nat → α) (m : Nat) :
    ∀ n, ((List.range n).map fun i => if i < m then [f i] else []).flatten =
      (List.range (min m n)).map f
  | 0 => by simp
  | n + 1 => by
    rw [List.range_succ, List.map_append, List.flatten_append, flatten_extras f m n]
    simp only [List.map_cons, List.map_nil, List.flatten_cons, List.flatten_nil,
      List.append_nil]
    by_cases h : n < m
    · have h1 : min m (n + 1) = n + 1 := by omega
      have h2 : min m n = n := by omega
      rw [if_pos h, h1, h2, List.range_succ, List.map_append]
      simp
    · have h1 : min m (n + 1) = min m n := by omega
      rw [if_neg h, h1]
      simp

theorem drop_eq_map_getD (l : List Str) (k : Nat) :
    l.drop k = (List.range (l.length - k)).map fun j => l.getD (k + j) [] := by
  apply List.ext_getElem
  · simp
  · intro i h1 h2
    simp only [List.length_drop] at h1
    have hki : k + i < l.length := by omega
    simp only [List.getElem_map, List.getElem_range, List.getD_eq_getElem l [] hki]
    rw [List.getElem_drop]

theorem planOf_flatten_perm (l : List Str) (size : Nat) (h : size ≠ 0) :
    List.Perm ((planOf l size).map Prod.snd).flatten l := by
  have hmod := Nat.div_add_mod l.length size
  have hlt : l.length % size < size := Nat.mod_lt _ (Nat.pos_of_ne_zero h)
  have hc : (planOf l size).map Prod.snd = (List.range size).map fun i =>
      (l.drop (i * (l.length / size))).take (l.length / size) ++ extraOf l size i := by
    unfold planOf
    rw [List.map_map]
    rfl
  rw [hc]
  have e1 : ((List.range size).map fun i =>
      (l.drop (i * (l.length / size))).take (l.length / size)).flatten =
      l.take (size * (l.length / size)) := flatten_slices l (l.length / size) size
  have e2 : ((List.range size).map (extraOf l size)).flatten =
      l.drop (size * (l.length / size)) := by
    unfold extraOf
    rw [flatten_extras]
    have hm : min (l.length % size) size = l.length % size := by omega
    rw [hm, drop_eq_map_getD l (size * (l.length / size))]
    have hn : l.length - size * (l.length / size) = l.length % size := by omega
    rw [hn]
  refine (flatten_map_append_perm (List.range size)
    (fun i => (l.drop (i * (l.length / size))).take (l.length / size))
    (extraOf l size)).trans ?_
  rw [e1, e2, List.take_append_drop]

theorem planOf_length (l : List Str) (size : Nat) (p : Nat × List Str)
    (hp : p ∈ planOf l size) :
    p.1 < size ∧
      p.2.length = l.length / size + (if p.1 < l.length % size then 1 else 0) := by
  unfold planOf at hp
  rw [List.mem_map] at hp
  obtain ⟨k, hk, rfl⟩ := hp
  rw [List.mem_range] at hk
  refine ⟨hk, ?_⟩
  simp only [List.length_append]
  have hmod := Nat.div_add_mod l.length size
  have h1 : (k + 1) * (l.length / size) ≤ size * (l.length / size) :=
    Nat.mul_le_mul_right _ hk
  have h2 : k * (l.length / size) + l.length / size = (k + 1) * (l.length / size) :=
    (Nat.succ_mul k (l.length / size)).symm
  have hslice : ((l.drop (k * (l.length / size))).take (l.length / size)).length
      = l.length / size := by
    rw [List.length_take, List.length_drop]
    omega
  rw [hslice]
  unfold extraOf
  by_cases hkm : k < l.length % size
  · rw [if_pos hkm, if_pos hkm]
    rfl
  · rw [if_neg hkm, if_neg hkm]
    rfl

theorem map_fst_pairs {β : Type} (g : Nat → β) (ks : List Nat) :
    ((ks.map fun k => (k, g k)).map Prod.fst) = ks := by
  induction ks with
  | nil => rfl
  | cons a ks ih => simp [ih]

theorem planOf_keys (l : List Str) (size : Nat) :
    (planOf l size).map Prod.fst = List.range size := by
  unfold planOf
  exact map_fst_pairs _ (List.range size)

theorem lookup_map_self (g : Nat → List Str) (r : Nat) (ks : List Nat)
    (h : r ∈ ks) :
    (ks.map fun k => (k, g k)).lookup r = some (g r) := by
  induction ks with
  | nil => cases h
  | cons k ks ih =>
    simp only [List.map_cons, List.lookup]
    by_cases hr : r = k
    · subst hr
      simp
    · have hb : (r == k) = false := by simp [hr]
      rw [hb]
      exact ih (by
        rcases List.mem_cons.mp h with h1 | h2
        · exact absurd h1 hr
        · exact h2)

theorem range_filter_lt (m : Nat) :
    ∀ n, (List.range n).filter (fun k => k < m) = List.range (min m n)
  | 0 => by simp
  | n + 1 => by
    rw [List.range_succ, List.filter_append, range_filter_lt m n]
    by_cases h : n < m
    · have h1 : min m (n + 1) = n + 1 := by omega
      have h2 : min m n = n := by omega
      rw [h1, h2, List.range_succ]
      simp [h]
    · have h1 : min m (n + 1) = min m n := by omega
      rw [h1]
      simp [h]

theorem countElems_eq_length (v : List Str) : countElems v = v.length := by
  have haux : ∀ (w : List Str) (n : Nat), w.foldl (fun acc _ => acc + 1) n = n + w.length := by
    intro w
    induction w with
    | nil => simp
    | cons a w ih => intro n; simp [ih, Nat.add_assoc, Nat.add_comm 1 w.length]
  have hv := haux v 0
  unfold countElems
  omega

theorem foldl_append_eq_flatten (g : AppendSOS → List Str) (results : List AppendSOS) :
    results.foldl (fun acc a => acc ++ g a) [] = (results.map g).flatten := by
  have haux : ∀ (rs : List AppendSOS) (acc : List Str),
      rs.foldl (fun acc a => acc ++ g a) acc = acc ++ (rs.map g).flatten := by
    intro rs
    induction rs with
    | nil => simp
    | cons a rs ih => intro acc; simp [ih, List.append_assoc]
  simpa using haux results []

theorem log_reaches_foldl (d : List (Nat × List Str)) (lines : List String)
    (t : Nat) :
    d.foldl (fun (acc : List String × Nat) p =>
      (acc.1 ++ [toString p.1 ++ "   Reach count:    " ++ toString (countElems p.2)],
       acc.2 + countElems p.2)) (lines, t) =
    (lines ++ d.map fun p =>
      toString p.1 ++ "   Reach count:    " ++ toString p.2.length,
     t + (d.map fun p => p.2.length).sum) := by
  have hfun : (fun (acc : List String × Nat) p =>
      (acc.1 ++ [toString p.1 ++ "   Reach count:    " ++ toString (countElems p.2)],
       acc.2 + countElems p.2)) =
      (fun (acc : List String × Nat) (p : Nat × List Str) =>
      (acc.1 ++ [toString p.1 ++ "   Reach count:    " ++ toString p.2.length],
       acc.2 + p.2.length)) := by
    funext acc p
    rw [countElems_eq_length]
  rw [hfun]
  induction d generalizing lines t with
  | nil => simp
  | cons p d ih =>
    simp only [List.foldl_cons, List.map_cons, List.sum_cons]
    rw [ih]
    simp [List.append_assoc, Nat.add_assoc]

theorem pySplit_no_sep (sep : Char) (s : Str) (h : sep ∉ s) :
    pySplit sep s = [s] := by
  induction s with
  | nil => rfl
  | cons c rest ih =>
    have hc : c ≠ sep := fun he => h (he ▸ List.mem_cons_self c rest)
    have hrest : sep ∉ rest := fun hm => h (List.mem_cons_of_mem c hm)
    show (match pySplit sep rest with
      | [] => if c = sep then [[], []] else [[c]]
      | t :: ts => if c = sep then [] :: t :: ts else (c :: t) :: ts) = [c :: rest]
    rw [ih hrest]
    simp [hc]

theorem deriveKey_no_sep (s : Str) (h : '_' ∉ s) :
    deriveKey s = .error .indexError := by
  unfold deriveKey
  rw [pySplit_no_sep '_' s h]
  rfl

theorem deriveKey_two_tokens (s : Str) (h : 2 ≤ (pySplit '_' s).length) :
    deriveKey s = .ok (List.intercalate ['_'] ((pySplit '_' s).take 2)) := by
  rcases hl : pySplit '_' s with _ | ⟨t0, tl⟩
  · rw [hl] at h
    simp at h
  · rcases tl with _ | ⟨t1, rest⟩
    · rw [hl] at h
      simp at h
    · unfold deriveKey pyIndex
      rw [hl]
      simp [List.intercalate, List.intersperse]
      rfl

theorem deriveKeys_ok (entries : List Str)
    (h : ∀ s ∈ entries, 2 ≤ (pySplit '_' s).length) :
    ∃ keys, deriveKeys entries = .ok keys := by
  induction entries with
  | nil => exact ⟨[], rfl⟩
  | cons n rest ih =>
    obtain ⟨ks, hks⟩ := ih fun s hs => h s (List.mem_cons_of_mem n hs)
    have hn := deriveKey_two_tokens n (h n (List.mem_cons_self n rest))
    refine ⟨List.intercalate ['_'] ((pySplit '_' n).take 2) :: ks, ?_⟩
    show (do
      let k ← deriveKey n
      let ks ← deriveKeys rest
      pure (k :: ks) : Except PyError (List Str)) = _
    rw [hn, hks]
    rfl

/-! ### Claim theorems -/

/-- C9: key derivation in `get_reach_dict` is partial — a raw identifier with
no `_` character makes the second-token access fail with an index error, and
the precondition that every raw identifier split on `_` has at least two
tokens makes the error branch unreachable (key derivation succeeds on the
whole entry list). -/
theorem C9_partial_token_access :
    (∀ s : Str, '_' ∉ s → deriveKey s = .error .indexError) ∧
    (∀ entries : List Str, (∀ s ∈ entries, 2 ≤ (pySplit '_' s).length) →
      ∃ keys, deriveKeys entries = .ok keys) :=
  ⟨deriveKey_no_sep, deriveKeys_ok⟩

theorem C9_partial_token_access_witness :
    deriveKey (chars "nounderscore.csv") = .error .indexError ∧
    ∃ keys, deriveKeys [chars "1_2_a", chars "3_4_a"] = .ok keys :=
  ⟨C9_partial_token_access.1 (chars "nounderscore.csv") (by decide),
   C9_partial_token_access.2 [chars "1_2_a", chars "3_4_a"] (by decide)⟩

/-- C4: the claim says the partition fails with an `InvalidConfiguration`
error for worker count < 1; at worker count 0 the code instead fails with a
`ZeroDivisionError` from `total_reaches // size` — there is no configuration
check.  This closed counterexample shows the claim false at a concrete
input. -/
theorem C4_counterexample :
    getReachDict [chars "1_2_a"] [chars "1_2"] 0 ≠
      Except.error PyError.invalidConfiguration := by
  decide

/-- C4 (amended): for worker count 0, `get_reach_dict` fails with a
`ZeroDivisionError` (raised inside `get_reach_dict` itself, i.e. before any
broadcast / barrier / gather is reached), provided key derivation itself
succeeded; no `InvalidConfiguration` check exists. -/
theorem C4_zero_workers_zero_division (entries enum keys : List Str)
    (hk : deriveKeys entries = .ok keys) :
    getReachDict entries enum 0 = .error .zeroDivisionError := by
  unfold getReachDict
  rw [hk]
  rfl

theorem C4_zero_workers_zero_division_witness :
    getReachDict [chars "1_2_a"] [chars "1_2"] 0 =
      .error .zeroDivisionError :=
  C4_zero_workers_zero_division [chars "1_2_a"] [chars "1_2"] [chars "1_2"]
    (by decide)

/-- C7: `log_results` aggregation — the global valid sequence is the
concatenation, in ascending rank (gather) order, of the per-rank valid
sequences with their internal order preserved; likewise for invalid; and the
reported totals are the lengths of those concatenations. -/
theorem C7_aggregation_concat (results : List AppendSOS) :
    totalValidList results = (results.map AppendSOS.valid_list).flatten ∧
    totalInvalidList results = (results.map AppendSOS.invalid_list).flatten ∧
    log_results results =
      ["total valid: " ++
        toString (results.map AppendSOS.valid_list).flatten.length,
       "total invalid: " ++
        toString (results.map AppendSOS.invalid_list).flatten.length,
       "",
       "valid reaches:",
       commaJoin (results.map AppendSOS.valid_list).flatten,
       "",
       "invalid reaches:",
       commaJoin (results.map AppendSOS.invalid_list).flatten,
       ""] := by
  have hv : totalValidList results = (results.map AppendSOS.valid_list).flatten :=
    foldl_append_eq_flatten AppendSOS.valid_list results
  have hiv : totalInvalidList results =
      (results.map AppendSOS.invalid_list).flatten :=
    foldl_append_eq_flatten AppendSOS.invalid_list results
  refine ⟨hv, hiv, ?_⟩
  simp only [log_results, hv, hiv]

/-- C8: `log_reaches` emits exactly one line per rank of the form
`"<rank>   Reach count:    <count>"` with the count equal to the length of
that rank's sequence, followed by the line `"Total reach count: <sum>"`
where the sum is the sum of the per-rank counts. -/
theorem C8_log_reaches_format (reach_dict : List (Nat × List Str)) :
    log_reaches reach_dict =
      (reach_dict.map fun p =>
        toString p.1 ++ "   Reach count:    " ++ toString p.2.length) ++
      ["Total reach count: " ++
        toString (reach_dict.map fun p => p.2.length).sum] ∧
    (log_reaches reach_dict).length = reach_dict.length + 1 := by
  have h : log_reaches reach_dict =
      (reach_dict.map fun p =>
        toString p.1 ++ "   Reach count:    " ++ toString p.2.length) ++
      ["Total reach count: " ++
        toString (reach_dict.map fun p => p.2.length).sum] := by
    simp only [log_reaches]
    rw [log_reaches_foldl]
    simp
  refine ⟨h, ?_⟩
  rw [h]
  simp

/-- C10: for every input and worker count N ≥ 1, the dictionary returned by
`get_reach_dict` has exactly the keys 0..N-1 in order, so the per-rank
lookup `reach_dict[rank]` succeeds for every rank below N. -/
theorem C10_plan_keys_complete (entries enum keys : List Str) (size : Nat)
    (hsz : 1 ≤ size) (hk : deriveKeys entries = .ok keys) :
    ∃ plan, getReachDict entries enum size = .ok plan ∧
      plan.map Prod.fst = List.range size ∧
      ∀ r, r < size → ∃ v, plan.lookup r = some v := by
  have hg : getReachDict entries enum size = partitionFrom enum size := by
    unfold getReachDict
    rw [hk]
  refine ⟨planOf enum size, ?_, planOf_keys enum size, ?_⟩
  · rw [hg]
    exact partitionFrom_eq_planOf enum size (by omega)
  · intro r hr
    exact ⟨_, lookup_map_self _ r (List.range size) (List.mem_range.mpr hr)⟩

theorem C10_plan_keys_complete_witness :
    ∃ plan, getReachDict [chars "1_2_a"] [chars "1_2"] 3 = .ok plan ∧
      plan.map Prod.fst = List.range 3 ∧
      ∀ r, r < 3 → ∃ v, plan.lookup r = some v :=
  C10_plan_keys_complete [chars "1_2_a"] [chars "1_2"] [chars "1_2"] 3
    (by decide) (by decide)

/-- C1: for every deduplicated enumeration of the derived item keys and
every worker count N ≥ 1, `get_reach_dict` succeeds and its per-rank
sequences are duplicate-free and pairwise disjoint, their union is exactly
the deduplicated item-key set, and any two per-rank counts differ by at
most 1. -/
theorem C1_partition_balanced_cover (entries keys enum : List Str)
    (size : Nat) (hsz : 1 ≤ size) (hk : deriveKeys entries = .ok keys)
    (hd : IsDedupOf enum keys) :
    ∃ plan, getReachDict entries enum size = .ok plan ∧
      (∀ p ∈ plan, p.2.Nodup) ∧
      plan.Pairwise (fun p q => ∀ x, x ∈ p.2 → x ∉ q.2) ∧
      (∀ x : Str, (∃ p ∈ plan, x ∈ p.2) ↔ x ∈ keys) ∧
      (∀ p ∈ plan, ∀ q ∈ plan, p.2.length ≤ q.2.length + 1) := by
  have hsz0 : size ≠ 0 := by omega
  have hg : getReachDict entries enum size = partitionFrom enum size := by
    unfold getReachDict
    rw [hk]
  have hperm := planOf_flatten_perm enum size hsz0
  have hnd : ((planOf enum size).map Prod.snd).flatten.Nodup :=
    hperm.nodup_iff.mpr hd.1
  rw [List.nodup_flatten] at hnd
  obtain ⟨hnd1, hnd2⟩ := hnd
  refine ⟨planOf enum size,
    by rw [hg]; exact partitionFrom_eq_planOf enum size hsz0, ?_, ?_, ?_, ?_⟩
  · intro p hp
    exact hnd1 p.2 (List.mem_map_of_mem Prod.snd hp)
  · have hpw := List.pairwise_map.mp hnd2
    exact hpw.imp fun h x hx hy => h hx hy
  · intro x
    constructor
    · rintro ⟨p, hp, hx⟩
      have hxf : x ∈ ((planOf enum size).map Prod.snd).flatten :=
        List.mem_flatten.mpr ⟨p.2, List.mem_map_of_mem Prod.snd hp, hx⟩
      exact (hd.2 x).mp (hperm.mem_iff.mp hxf)
    · intro hx
      have hxf : x ∈ ((planOf enum size).map Prod.snd).flatten :=
        hperm.mem_iff.mpr ((hd.2 x).mpr hx)
      obtain ⟨l, hl, hx2⟩ := List.mem_flatten.mp hxf
      obtain ⟨p, hp, rfl⟩ := List.mem_map.mp hl
      exact ⟨p, hp, hx2⟩
  · intro p hp q hq
    obtain ⟨-, hep⟩ := planOf_length enum size p hp
    obtain ⟨-, heq⟩ := planOf_length enum size q hq
    rw [hep, heq]
    split_ifs <;> omega

theorem C1_partition_balanced_cover_witness :
    ∃ plan, getReachDict [chars "1_2_a", chars "3_4_a"]
        [chars "1_2", chars "3_4"] 2 = .ok plan ∧
      (∀ p ∈ plan, p.2.Nodup) ∧
      plan.Pairwise (fun p q => ∀ x, x ∈ p.2 → x ∉ q.2) ∧
      (∀ x : Str, (∃ p ∈ plan, x ∈ p.2) ↔ x ∈ [chars "1_2", chars "3_4"]) ∧
      (∀ p ∈ plan, ∀ q ∈ plan, p.2.length ≤ q.2.length + 1) :=
  C1_partition_balanced_cover [chars "1_2_a", chars "3_4_a"]
    [chars "1_2", chars "3_4"] [chars "1_2", chars "3_4"] 2
    (by decide) (by decide) ⟨by decide, fun k => Iff.rfl⟩

/-- C2: with T the number of deduplicated keys and N ≥ 1 workers, exactly
`T mod N` ranks receive `T div N + 1` keys, every other rank receives
exactly `T div N`, and the ranks receiving the extra key are precisely
ranks `0 .. T mod N - 1` — the round-robin walk that starts at rank 0. -/
theorem C2_remainder_round_robin (entries keys enum : List Str)
    (size : Nat) (hsz : 1 ≤ size) (hk : deriveKeys entries = .ok keys)
    (hd : IsDedupOf enum keys) :
    ∃ plan, getReachDict entries enum size = .ok plan ∧
      (plan.filter fun p => p.2.length = enum.length / size + 1).length
        = enum.length % size ∧
      (∀ p ∈ plan, p.2.length = enum.length / size + 1 ∨
        p.2.length = enum.length / size) ∧
      (∀ p ∈ plan, (p.2.length = enum.length / size + 1 ↔
        p.1 < enum.length % size)) := by
  have hsz0 : size ≠ 0 := by omega
  have hg : getReachDict entries enum size = partitionFrom enum size := by
    unfold getReachDict
    rw [hk]
  have hlt : enum.length % size < size := Nat.mod_lt _ (Nat.pos_of_ne_zero hsz0)
  refine ⟨planOf enum size,
    by rw [hg]; exact partitionFrom_eq_planOf enum size hsz0, ?_, ?_, ?_⟩
  · have h1 : (planOf enum size).filter
        (fun p => p.2.length = enum.length / size + 1) =
        (planOf enum size).filter (fun p => p.1 < enum.length % size) := by
      apply List.filter_congr
      intro p hp
      obtain ⟨-, hlen⟩ := planOf_length enum size p hp
      rw [hlen]
      by_cases hkr : p.1 < enum.length % size
      · simp [hkr]
      · have hne : ¬(enum.length / size + 0 = enum.length / size + 1) := by omega
        simp [hkr, hne]
    rw [h1]
    unfold planOf
    rw [List.filter_map, List.length_map]
    show ((List.range size).filter (fun k => k < enum.length % size)).length =
      enum.length % size
    rw [range_filter_lt, List.length_range]
    omega
  · intro p hp
    obtain ⟨-, hlen⟩ := planOf_length enum size p hp
    rw [hlen]
    by_cases hkr : p.1 < enum.length % size
    · left
      rw [if_pos hkr]
    · right
      rw [if_neg hkr]
      omega
  · intro p hp
    obtain ⟨-, hlen⟩ := planOf_length enum size p hp
    rw [hlen]
    by_cases hkr : p.1 < enum.length % size
    · rw [if_pos hkr]
      simp [hkr]
    · rw [if_neg hkr]
      simp only [hkr, iff_false]
      omega

theorem C2_remainder_round_robin_witness :
    ∃ plan, getReachDict
        [chars "1_2_a", chars "3_4_a", chars "5_6_a", chars "7_8_a", chars "9_0_a"]
        [chars "1_2", chars "3_4", chars "5_6", chars "7_8", chars "9_0"] 3 =
        .ok plan ∧
      (plan.filter fun p => p.2.length =
        [chars "1_2", chars "3_4", chars "5_6", chars "7_8", chars "9_0"].length / 3
          + 1).length =
        [chars "1_2", chars "3_4", chars "5_6", chars "7_8", chars "9_0"].length % 3 ∧
      (∀ p ∈ plan, p.2.length =
          [chars "1_2", chars "3_4", chars "5_6", chars "7_8", chars "9_0"].length / 3
            + 1 ∨
        p.2.length =
          [chars "1_2", chars "3_4", chars "5_6", chars "7_8", chars "9_0"].length / 3) ∧
      (∀ p ∈ plan, (p.2.length =
          [chars "1_2", chars "3_4", chars "5_6", chars "7_8", chars "9_0"].length / 3
            + 1 ↔
        p.1 <
          [chars "1_2", chars "3_4", chars "5_6", chars "7_8", chars "9_0"].length % 3)) :=
  C2_remainder_round_robin
    [chars "1_2_a", chars "3_4_a", chars "5_6_a", chars "7_8_a", chars "9_0_a"]
    [chars "1_2", chars "3_4", chars "5_6", chars "7_8", chars "9_0"]
    [chars "1_2", chars "3_4", chars "5_6", chars "7_8", chars "9_0"] 3
    (by decide) (by decide) ⟨by decide, fun k => Iff.rfl⟩

theorem totalValidList_eq_flatten (results : List AppendSOS) :
    totalValidList results = (results.map AppendSOS.valid_list).flatten :=
  foldl_append_eq_flatten AppendSOS.valid_list results

theorem totalInvalidList_eq_flatten (results : List AppendSOS) :
    totalInvalidList results = (results.map AppendSOS.invalid_list).flatten :=
  foldl_append_eq_flatten AppendSOS.invalid_list results

theorem flatten_map_const_nil {α : Type} (L : List α) :
    (L.map fun _ => ([] : List Str)).flatten = [] := by
  induction L with
  | nil => rfl
  | cons a L ih => simpa using ih

theorem perm_count (l1 l2 : List Str) (h : List.Perm l1 l2) (a : Str) :
    l1.count a = l2.count a := by
  induction h with
  | nil => rfl
  | cons x _ ih => simp [List.count_cons, ih]
  | swap x y l => simp [List.count_cons]; omega
  | trans _ _ ih1 ih2 => exact ih1.trans ih2

theorem count_eq_one_of_nodup_mem (l : List Str) (k : Str) (hn : l.Nodup)
    (hm : k ∈ l) : l.count k = 1 := by
  induction l with
  | nil => cases hm
  | cons b l ih =>
    rw [List.count_cons]
    rcases List.mem_cons.mp hm with rfl | hm2
    · rw [List.count_eq_zero.mpr (List.nodup_cons.mp hn).1, if_pos (by simp)]
    · have hne : b ≠ k := fun he => (List.nodup_cons.mp hn).1 (he ▸ hm2)
      rw [if_neg (by simp [hne]), ih (List.nodup_cons.mp hn).2 hm2]

/-- C5: the derived item key is the first two `_`-delimited tokens of the
raw identifier joined by `_` (e.g. `"12_34_x.csv"` gives `"12_34"`), and
keys are deduplicated — every raw identifier sharing the same two-token
prefix contributes exactly one key to the partitioned set. -/
theorem C5_item_key_derivation :
    (∀ s : Str, 2 ≤ (pySplit '_' s).length →
      deriveKey s = .ok (List.intercalate ['_'] ((pySplit '_' s).take 2))) ∧
    deriveKey (chars "12_34_x.csv") = .ok (chars "12_34") ∧
    (∀ entries keys enum : List Str, ∀ size : Nat,
      ∀ plan : List (Nat × List Str), 1 ≤ size →
      deriveKeys entries = .ok keys → IsDedupOf enum keys →
      getReachDict entries enum size = .ok plan →
      ∀ k ∈ keys, (plan.map Prod.snd).flatten.count k = 1) := by
  refine ⟨deriveKey_two_tokens, by decide, ?_⟩
  intro entries keys enum size plan hsz hk hd hp k hkm
  have hsz0 : size ≠ 0 := by omega
  have hg : getReachDict entries enum size = partitionFrom enum size := by
    unfold getReachDict
    rw [hk]
  rw [hg, partitionFrom_eq_planOf enum size hsz0] at hp
  injection hp with hp
  subst hp
  have hperm := planOf_flatten_perm enum size hsz0
  rw [perm_count _ _ hperm k]
  exact count_eq_one_of_nodup_mem enum k hd.1 ((hd.2 k).mpr hkm)

theorem C5_item_key_derivation_witness :
    deriveKey (chars "1_2_b") =
      .ok (List.intercalate ['_'] ((pySplit '_' (chars "1_2_b")).take 2)) ∧
    (([(0, [chars "1_2"]), (1, [chars "3_4"])] :
        List (Nat × List Str)).map Prod.snd).flatten.count (chars "1_2") = 1 :=
  ⟨C5_item_key_derivation.1 (chars "1_2_b") (by decide),
   C5_item_key_derivation.2.2
    [chars "1_2_a", chars "1_2_b", chars "3_4_a"]
    [chars "1_2", chars "1_2", chars "3_4"]
    [chars "1_2", chars "3_4"] 2
    [(0, [chars "1_2"]), (1, [chars "3_4"])]
    (by decide) (by decide)
    ⟨by decide, fun k => by
      simp only [List.mem_cons, List.not_mem_nil, or_false]
      tauto⟩
    (by decide) (chars "1_2") (by decide)⟩

/-- C6: when the number of deduplicated keys is strictly below the worker
count, `get_reach_dict` still succeeds and some rank receives an empty
sequence; for zero keys every rank receives an empty sequence and the
aggregate report counts 0 valid and 0 invalid keys. -/
theorem C6_fewer_items_than_ranks :
    (∀ entries keys enum : List Str, ∀ size : Nat, 1 ≤ size →
      deriveKeys entries = .ok keys → IsDedupOf enum keys →
      enum.length < size →
      ∃ plan, getReachDict entries enum size = .ok plan ∧
        ∃ p ∈ plan, p.2 = []) ∧
    (∀ entries keys : List Str, ∀ size : Nat, ∀ pu : Str → Bool, 1 ≤ size →
      deriveKeys entries = .ok keys → IsDedupOf [] keys →
      ∃ plan, getReachDict entries [] size = .ok plan ∧
        (∀ p ∈ plan, p.2 = []) ∧
        (log_results (plan.map fun p => workerSession pu p.2)).take 2 =
          ["total valid: 0", "total invalid: 0"]) := by
  constructor
  · intro entries keys enum size hsz hk hd hlen
    have hsz0 : size ≠ 0 := by omega
    have hg : getReachDict entries enum size = partitionFrom enum size := by
      unfold getReachDict
      rw [hk]
    refine ⟨planOf enum size,
      by rw [hg]; exact partitionFrom_eq_planOf enum size hsz0, ?_⟩
    have hbase : enum.length / size = 0 := Nat.div_eq_of_lt hlen
    have hm : enum.length % size = enum.length := Nat.mod_eq_of_lt hlen
    have hmem : (size - 1) ∈ List.range size := List.mem_range.mpr (by omega)
    refine ⟨_, List.mem_map_of_mem _ hmem, ?_⟩
    show (enum.drop ((size - 1) * (enum.length / size))).take (enum.length / size)
      ++ extraOf enum size (size - 1) = []
    rw [hbase, List.take_zero, List.nil_append]
    unfold extraOf
    rw [hm, if_neg (by omega)]
  · intro entries keys size pu hsz hk hd
    have hsz0 : size ≠ 0 := by omega
    have hg : getReachDict entries [] size = partitionFrom [] size := by
      unfold getReachDict
      rw [hk]
    have hempty : ∀ p ∈ planOf [] size, p.2 = [] := by
      intro p hp
      obtain ⟨i, hi, rfl⟩ := List.mem_map.mp hp
      show (([] : List Str).drop
          (i * (([] : List Str).length / size))).take (([] : List Str).length / size)
        ++ extraOf [] size i = []
      simp [extraOf]
    refine ⟨planOf [] size,
      by rw [hg]; exact partitionFrom_eq_planOf [] size hsz0, hempty, ?_⟩
    have hmap : (planOf [] size).map (fun p => workerSession pu p.2) =
        (planOf [] size).map (fun _ => (⟨[], []⟩ : AppendSOS)) := by
      apply List.map_congr_left
      intro p hp
      rw [hempty p hp]
      rfl
    rw [hmap]
    have hv : totalValidList ((planOf [] size).map fun _ =>
        (⟨[], []⟩ : AppendSOS)) = [] := by
      rw [totalValidList_eq_flatten, List.map_map]
      exact flatten_map_const_nil _
    have hiv : totalInvalidList ((planOf [] size).map fun _ =>
        (⟨[], []⟩ : AppendSOS)) = [] := by
      rw [totalInvalidList_eq_flatten, List.map_map]
      exact flatten_map_const_nil _
    simp only [log_results, hv, hiv]
    rfl

theorem C6_fewer_items_than_ranks_witness :
    (∃ plan, getReachDict [chars "1_2_a"] [chars "1_2"] 4 = .ok plan ∧
      ∃ p ∈ plan, p.2 = []) ∧
    (∃ plan, getReachDict ([] : List Str) [] 4 = .ok plan ∧
      (∀ p ∈ plan, p.2 = []) ∧
      (log_results (plan.map fun p => workerSession (fun _ => true) p.2)).take 2 =
        ["total valid: 0", "total invalid: 0"]) :=
  ⟨C6_fewer_items_than_ranks.1 [chars "1_2_a"] [chars "1_2"] [chars "1_2"] 4
    (by decide) (by decide) ⟨by decide, fun k => Iff.rfl⟩ (by decide),
   C6_fewer_items_than_ranks.2 [] [] 4 (fun _ => true)
    (by decide) (by decide) ⟨by decide, fun k => Iff.rfl⟩⟩

/-- C3: the claim asserts the partition plan is independent of the host
set-iteration order; it is not.  The same raw-identifier set, deduplicated
to the same key set but enumerated by `list(set(...))` in two different
orders (both legitimate iteration orders of the same Python set), yields
two different partition plans at N = 2 — the plan depends on the
implementation-defined set order, which Python does not keep stable across
runs. -/
theorem C3_set_order_dependence :
    deriveKeys [chars "1_2_a", chars "3_4_a"] =
      .ok [chars "1_2", chars "3_4"] ∧
    IsDedupOf [chars "1_2", chars "3_4"] [chars "1_2", chars "3_4"] ∧
    IsDedupOf [chars "3_4", chars "1_2"] [chars "1_2", chars "3_4"] ∧
    getReachDict [chars "1_2_a", chars "3_4_a"]
        [chars "1_2", chars "3_4"] 2 ≠
      getReachDict [chars "1_2_a", chars "3_4_a"]
        [chars "3_4", chars "1_2"] 2 :=
  ⟨by decide, ⟨by decide, fun k => Iff.rfl⟩,
   ⟨by decide, fun k => by
      simp only [List.mem_cons, List.not_mem_nil, or_false]
      tauto⟩,
   by decide⟩
